import Mathlib

/-!
Verification of the gm-rs arithmetic core against its specification.

The definitions below are shallow embeddings of the repository's Rust
sources:
  * `src/gm-sm9/src/u256.rs`  (fixed-width integer layer),
  * `src/gm-sm9/src/points.rs` (Jacobian point layer for G1),
  * `src/src/sm2/key.rs`       (SM2 hybrid encryption protocol layer).
Machine integers (`u64`, `u8`) are embedded as `Nat` with explicit
`% 2^64` / `% 2^32` / `% 256` wherever the machine operation can wrap.
Rust panics (out-of-range slicing, `todo!()`) are embedded as `none` of
an `Option` result.
-/

/-- A 256-bit integer: four 64-bit limbs, least significant first
(`pub type U256 = [u64; 4]` in `u256.rs`). -/
structure U256 where
  l0 : Nat
  l1 : Nat
  l2 : Nat
  l3 : Nat
  deriving DecidableEq, Repr

/-- Limb validity: each limb is an in-range `u64` value. -/
def u256_valid (a : U256) : Prop :=
  a.l0 < 18446744073709551616 ∧ a.l1 < 18446744073709551616 ∧
  a.l2 < 18446744073709551616 ∧ a.l3 < 18446744073709551616

instance (a : U256) : Decidable (u256_valid a) := by
  unfold u256_valid; infer_instance

/-- The mathematical value of a `U256` (limbs are little-endian base-2^64). -/
def u256_toNat (a : U256) : Nat :=
  a.l0 + 18446744073709551616 * (a.l1 + 18446744073709551616 *
    (a.l2 + 18446744073709551616 * a.l3))

/-- One step of the carry chain in `u256_add`: two `overflowing_add`
calls on `u64` (`u256.rs` lines 15-19). -/
def addCarry (x y : Nat) (c : Bool) : Nat × Bool :=
  let ci : Nat := if c then 1 else 0
  let m := (x + y) % 18446744073709551616
  let c1 := decide (18446744073709551616 ≤ x + y)
  let r := (m + ci) % 18446744073709551616
  let c2 := decide (18446744073709551616 ≤ m + ci)
  (r, c1 || c2)

/-- `u256_add` from `u256.rs`: limbwise add with carry propagation from
least- to most-significant limb, returning the sum and the carry-out. -/
def u256_add (a b : U256) : U256 × Bool :=
  let r0 := addCarry a.l0 b.l0 false
  let r1 := addCarry a.l1 b.l1 r0.2
  let r2 := addCarry a.l2 b.l2 r1.2
  let r3 := addCarry a.l3 b.l3 r2.2
  (⟨r0.1, r1.1, r2.1, r3.1⟩, r3.2)

/-- One step of the borrow chain in `u256_sub`: two `overflowing_sub`
calls on `u64` (`u256.rs` lines 58-62). -/
def subBorrow (x y : Nat) (c : Bool) : Nat × Bool :=
  let ci : Nat := if c then 1 else 0
  let a1 := (x + 18446744073709551616 - ci) % 18446744073709551616
  let b1 := decide (x < ci)
  let r := (a1 + 18446744073709551616 - y) % 18446744073709551616
  let b2 := decide (a1 < y)
  (r, b1 || b2)

/-- `u256_sub` from `u256.rs`: limbwise subtract with borrow propagation
from least- to most-significant limb, returning the difference and the
borrow-out. -/
def u256_sub (a b : U256) : U256 × Bool :=
  let r0 := subBorrow a.l0 b.l0 false
  let r1 := subBorrow a.l1 b.l1 r0.2
  let r2 := subBorrow a.l2 b.l2 r1.2
  let r3 := subBorrow a.l3 b.l3 r2.2
  (⟨r0.1, r1.1, r2.1, r3.1⟩, r3.2)

/-- `u64::to_le_bytes`: the eight bytes of a 64-bit limb, least
significant byte first. -/
def to_le_bytes (x : Nat) : List Nat :=
  [x % 256, x / 256 % 256, x / 65536 % 256, x / 16777216 % 256,
   x / 4294967296 % 256, x / 1099511627776 % 256,
   x / 281474976710656 % 256, x / 72057594037927936 % 256]

/-- `u64::from_le_bytes`: recombine eight little-endian bytes into a
64-bit value. -/
def from_le_bytes (l : List Nat) : Nat :=
  l.getD 0 0 + 256 * (l.getD 1 0 + 256 * (l.getD 2 0 + 256 *
    (l.getD 3 0 + 256 * (l.getD 4 0 + 256 * (l.getD 5 0 + 256 *
      (l.getD 6 0 + 256 * l.getD 7 0))))))

/-- `sm9_u256_to_bytes` from `u256.rs`: emit the most-significant limb
first, each limb in its `to_le_bytes` layout. -/
def sm9_u256_to_bytes (a : U256) : List Nat :=
  to_le_bytes a.l3 ++ to_le_bytes a.l2 ++ to_le_bytes a.l1 ++ to_le_bytes a.l0

/-- `sm9_u256_from_bytes` from `u256.rs`: limb 3 from bytes 0..8,
limb 2 from bytes 8..16, limb 1 from bytes 16..24, limb 0 from
bytes 24..32, each slice read with `from_le_bytes`. -/
def sm9_u256_from_bytes (input : List Nat) : U256 :=
  ⟨from_le_bytes ((input.drop 24).take 8),
   from_le_bytes ((input.drop 16).take 8),
   from_le_bytes ((input.drop 8).take 8),
   from_le_bytes (input.take 8)⟩

lemma addCarry_spec (x y : Nat) (c : Bool)
    (hx : x < 18446744073709551616) (hy : y < 18446744073709551616) :
    (addCarry x y c).1 + 18446744073709551616 *
      (if (addCarry x y c).2 then 1 else 0) = x + y + (if c then 1 else 0) ∧
    (addCarry x y c).1 < 18446744073709551616 := by
  cases c <;>
    simp only [addCarry, Bool.or_eq_true, decide_eq_true_eq, if_true, if_false] <;>
    refine ⟨?_, ?_⟩ <;> (try split_ifs) <;> omega

lemma subBorrow_spec (x y : Nat) (c : Bool)
    (hx : x < 18446744073709551616) (hy : y < 18446744073709551616) :
    x + 18446744073709551616 * (if (subBorrow x y c).2 then 1 else 0) =
      (subBorrow x y c).1 + y + (if c then 1 else 0) ∧
    (subBorrow x y c).1 < 18446744073709551616 := by
  cases c <;>
    simp only [subBorrow, Bool.or_eq_true, decide_eq_true_eq, if_true, if_false] <;>
    refine ⟨?_, ?_⟩ <;> (try split_ifs) <;> omega

lemma u256_add_spec (a b : U256) (ha : u256_valid a) (hb : u256_valid b) :
    u256_toNat (u256_add a b).1 +
      115792089237316195423570985008687907853269984665640564039457584007913129639936 *
        (if (u256_add a b).2 then 1 else 0) = u256_toNat a + u256_toNat b ∧
    u256_valid (u256_add a b).1 := by
  obtain ⟨ha0, ha1, ha2, ha3⟩ := ha
  obtain ⟨hb0, hb1, hb2, hb3⟩ := hb
  have s0 := addCarry_spec a.l0 b.l0 false ha0 hb0
  have s1 := addCarry_spec a.l1 b.l1 (addCarry a.l0 b.l0 false).2 ha1 hb1
  have s2 := addCarry_spec a.l2 b.l2
    (addCarry a.l1 b.l1 (addCarry a.l0 b.l0 false).2).2 ha2 hb2
  have s3 := addCarry_spec a.l3 b.l3
    (addCarry a.l2 b.l2 (addCarry a.l1 b.l1 (addCarry a.l0 b.l0 false).2).2).2 ha3 hb3
  simp only [u256_add, u256_toNat, u256_valid]
  obtain ⟨e0, l0⟩ := s0
  obtain ⟨e1, l1⟩ := s1
  obtain ⟨e2, l2⟩ := s2
  obtain ⟨e3, l3⟩ := s3
  constructor
  · split_ifs at * <;> omega
  · exact ⟨l0, l1, l2, l3⟩

lemma u256_sub_spec (a b : U256) (ha : u256_valid a) (hb : u256_valid b) :
    u256_toNat a +
      115792089237316195423570985008687907853269984665640564039457584007913129639936 *
        (if (u256_sub a b).2 then 1 else 0) =
      u256_toNat (u256_sub a b).1 + u256_toNat b ∧
    u256_valid (u256_sub a b).1 := by
  obtain ⟨ha0, ha1, ha2, ha3⟩ := ha
  obtain ⟨hb0, hb1, hb2, hb3⟩ := hb
  have s0 := subBorrow_spec a.l0 b.l0 false ha0 hb0
  have s1 := subBorrow_spec a.l1 b.l1 (subBorrow a.l0 b.l0 false).2 ha1 hb1
  have s2 := subBorrow_spec a.l2 b.l2
    (subBorrow a.l1 b.l1 (subBorrow a.l0 b.l0 false).2).2 ha2 hb2
  have s3 := subBorrow_spec a.l3 b.l3
    (subBorrow a.l2 b.l2 (subBorrow a.l1 b.l1 (subBorrow a.l0 b.l0 false).2).2).2 ha3 hb3
  simp only [u256_sub, u256_toNat, u256_valid]
  obtain ⟨e0, l0⟩ := s0
  obtain ⟨e1, l1⟩ := s1
  obtain ⟨e2, l2⟩ := s2
  obtain ⟨e3, l3⟩ := s3
  constructor
  · split_ifs at * <;> omega
  · exact ⟨l0, l1, l2, l3⟩

lemma u256_toNat_inj (a b : U256) (ha : u256_valid a) (hb : u256_valid b)
    (h : u256_toNat a = u256_toNat b) : a = b := by
  obtain ⟨a0, a1, a2, a3⟩ := a
  obtain ⟨b0, b1, b2, b3⟩ := b
  obtain ⟨ha0, ha1, ha2, ha3⟩ := ha
  obtain ⟨hb0, hb1, hb2, hb3⟩ := hb
  simp only [u256_toNat] at h
  try dsimp only at h ha0 ha1 ha2 ha3 hb0 hb1 hb2 hb3
  simp only [U256.mk.injEq]
  omega

lemma u256_toNat_lt (a : U256) (ha : u256_valid a) :
    u256_toNat a <
      115792089237316195423570985008687907853269984665640564039457584007913129639936 := by
  obtain ⟨ha0, ha1, ha2, ha3⟩ := ha
  simp only [u256_toNat]
  omega

/-- C5: carry and borrow flags are exact, and subtraction inverts a
non-overflowing addition. For all valid 256-bit values `a`, `b`:
if `u256_add a b` reports no carry then `u256_sub (u256_add a b).1 b`
recovers `a`; the carry flag is set exactly when the true sum reaches
`2^256`; the borrow flag of `u256_sub a b` is set exactly when `a < b`. -/
theorem u256_add_sub_roundtrip (a b : U256)
    (ha : u256_valid a) (hb : u256_valid b) :
    ((u256_add a b).2 = false → (u256_sub (u256_add a b).1 b).1 = a) ∧
    ((u256_add a b).2 = true ↔
      115792089237316195423570985008687907853269984665640564039457584007913129639936 ≤
        u256_toNat a + u256_toNat b) ∧
    ((u256_sub a b).2 = true ↔ u256_toNat a < u256_toNat b) := by
  obtain ⟨hadd, haddv⟩ := u256_add_spec a b ha hb
  obtain ⟨hsub, hsubv⟩ := u256_sub_spec a b ha hb
  have hlta := u256_toNat_lt a ha
  have hltb := u256_toNat_lt b hb
  have hltsum := u256_toNat_lt _ haddv
  have hltdiff := u256_toNat_lt _ hsubv
  refine ⟨?_, ?_, ?_⟩
  · intro hnc
    obtain ⟨hsub2, hsubv2⟩ := u256_sub_spec (u256_add a b).1 b haddv hb
    have hltdiff2 := u256_toNat_lt _ hsubv2
    rw [hnc] at hadd
    simp only [Bool.false_eq_true, if_false, Nat.mul_zero, Nat.add_zero] at hadd
    apply u256_toNat_inj _ _ hsubv2 ha
    cases hb2 : (u256_sub (u256_add a b).1 b).2 <;> rw [hb2] at hsub2 <;>
      simp only [Bool.false_eq_true, if_false, if_true, Nat.mul_zero,
        Nat.mul_one, Nat.add_zero] at hsub2 <;> omega
  · cases hc : (u256_add a b).2 <;> rw [hc] at hadd <;>
      simp only [Bool.false_eq_true, if_false, if_true, Nat.mul_zero,
        Nat.mul_one, Nat.add_zero] at hadd
    · simp only [Bool.false_eq_true, false_iff]; omega
    · simp only [true_iff]; omega
  · cases hc : (u256_sub a b).2 <;> rw [hc] at hsub <;>
      simp only [Bool.false_eq_true, if_false, if_true, Nat.mul_zero,
        Nat.mul_one, Nat.add_zero] at hsub
    · simp only [Bool.false_eq_true, false_iff]; omega
    · simp only [true_iff]; omega

/-- Witness for C5 at a concrete input. -/
theorem u256_add_sub_roundtrip_witness :
    u256_valid ⟨3, 5, 7, 9⟩ ∧ u256_valid ⟨2, 4, 6, 8⟩ ∧
    ((u256_add ⟨3, 5, 7, 9⟩ ⟨2, 4, 6, 8⟩).2 = false →
      (u256_sub (u256_add ⟨3, 5, 7, 9⟩ ⟨2, 4, 6, 8⟩).1 ⟨2, 4, 6, 8⟩).1 = ⟨3, 5, 7, 9⟩) ∧
    ((u256_add ⟨3, 5, 7, 9⟩ ⟨2, 4, 6, 8⟩).2 = true ↔
      115792089237316195423570985008687907853269984665640564039457584007913129639936 ≤
        u256_toNat ⟨3, 5, 7, 9⟩ + u256_toNat ⟨2, 4, 6, 8⟩) ∧
    ((u256_sub ⟨3, 5, 7, 9⟩ ⟨2, 4, 6, 8⟩).2 = true ↔
      u256_toNat ⟨3, 5, 7, 9⟩ < u256_toNat ⟨2, 4, 6, 8⟩) :=
  ⟨by decide, by decide,
   (u256_add_sub_roundtrip ⟨3, 5, 7, 9⟩ ⟨2, 4, 6, 8⟩ (by decide) (by decide)).1,
   (u256_add_sub_roundtrip ⟨3, 5, 7, 9⟩ ⟨2, 4, 6, 8⟩ (by decide) (by decide)).2.1,
   (u256_add_sub_roundtrip ⟨3, 5, 7, 9⟩ ⟨2, 4, 6, 8⟩ (by decide) (by decide)).2.2⟩

/-- C4: byte-serialization round trip. For every valid 256-bit value,
`sm9_u256_from_bytes (sm9_u256_to_bytes v) = v`: the encoding emits the
most-significant limb first, each limb little-endian, and decoding
inverts it exactly. -/
theorem sm9_u256_bytes_roundtrip (a : U256) (ha : u256_valid a) :
    sm9_u256_from_bytes (sm9_u256_to_bytes a) = a := by
  obtain ⟨a0, a1, a2, a3⟩ := a
  obtain ⟨h0, h1, h2, h3⟩ := ha
  try dsimp only at h0 h1 h2 h3
  show U256.mk
    (a0 % 256 + 256 * (a0 / 256 % 256 + 256 * (a0 / 65536 % 256 + 256 *
      (a0 / 16777216 % 256 + 256 * (a0 / 4294967296 % 256 + 256 *
        (a0 / 1099511627776 % 256 + 256 * (a0 / 281474976710656 % 256 + 256 *
          (a0 / 72057594037927936 % 256))))))))
    (a1 % 256 + 256 * (a1 / 256 % 256 + 256 * (a1 / 65536 % 256 + 256 *
      (a1 / 16777216 % 256 + 256 * (a1 / 4294967296 % 256 + 256 *
        (a1 / 1099511627776 % 256 + 256 * (a1 / 281474976710656 % 256 + 256 *
          (a1 / 72057594037927936 % 256))))))))
    (a2 % 256 + 256 * (a2 / 256 % 256 + 256 * (a2 / 65536 % 256 + 256 *
      (a2 / 16777216 % 256 + 256 * (a2 / 4294967296 % 256 + 256 *
        (a2 / 1099511627776 % 256 + 256 * (a2 / 281474976710656 % 256 + 256 *
          (a2 / 72057594037927936 % 256))))))))
    (a3 % 256 + 256 * (a3 / 256 % 256 + 256 * (a3 / 65536 % 256 + 256 *
      (a3 / 16777216 % 256 + 256 * (a3 / 4294967296 % 256 + 256 *
        (a3 / 1099511627776 % 256 + 256 * (a3 / 281474976710656 % 256 + 256 *
          (a3 / 72057594037927936 % 256))))))))
    = U256.mk a0 a1 a2 a3
  simp only [U256.mk.injEq]
  refine ⟨?_, ?_, ?_, ?_⟩ <;> omega

/-- Witness for C4 at a concrete input. -/
theorem sm9_u256_bytes_roundtrip_witness :
    u256_valid ⟨1, 22, 333, 4444⟩ ∧
    sm9_u256_from_bytes (sm9_u256_to_bytes ⟨1, 22, 333, 4444⟩) = ⟨1, 22, 333, 4444⟩ :=
  ⟨by decide, sm9_u256_bytes_roundtrip ⟨1, 22, 333, 4444⟩ (by decide)⟩

/-- The half-limb split in `u256_mul` (`u256.rs` lines 131-136): each
64-bit limb `a[i]` contributes `a[i] & 0xffffffff` and `a[i] >> 32`,
giving eight 32-bit digits, least significant first. -/
def sm9_split (a : U256) : List Nat :=
  [a.l0 % 4294967296, a.l0 / 4294967296,
   a.l1 % 4294967296, a.l1 / 4294967296,
   a.l2 % 4294967296, a.l2 / 4294967296,
   a.l3 % 4294967296, a.l3 / 4294967296]

/-- Inner loop of the schoolbook convolution in `u256_mul`
(`u256.rs` lines 141-145): for each digit `bj` of `b_`, accumulate
`u = s[i+j] + a_[i] * b_[j] + u` in `u64` arithmetic (each operation
taken mod 2^64), store the low 32 bits back into `s[i+j]`, and carry
the high bits. `k` tracks the write position `i + j`. -/
def mulInner (ai : Nat) : List Nat → Nat → List Nat → Nat → List Nat × Nat
  | [], _, s, u => (s, u)
  | bj :: bs, k, s, u =>
    let t := ((s.getD k 0 + (ai * bj) % 18446744073709551616) %
      18446744073709551616 + u) % 18446744073709551616
    mulInner ai bs (k + 1) (s.set k (t % 4294967296)) (t / 4294967296)

/-- The exact (unwrapped) value of every inner accumulation
`s[i+j] + a_[i] * b_[j] + u` met while running `mulInner`, in order. -/
def mulInnerAccs (ai : Nat) : List Nat → Nat → List Nat → Nat → List Nat
  | [], _, _, _ => []
  | bj :: bs, k, s, u =>
    let t := ((s.getD k 0 + (ai * bj) % 18446744073709551616) %
      18446744073709551616 + u) % 18446744073709551616
    (s.getD k 0 + ai * bj + u) ::
      mulInnerAccs ai bs (k + 1) (s.set k (t % 4294967296)) (t / 4294967296)

/-- Outer loop of `u256_mul` (`u256.rs` lines 139-147): run the inner
loop for digit `a_[i]` starting at position `i` with `u = 0`, then store
the final carry into `s[i + 8]`. -/
def mulOuter (bd : List Nat) : List Nat → Nat → List Nat → List Nat
  | [], _, s => s
  | ai :: rest, i, s =>
    let r := mulInner ai bd i s 0
    mulOuter bd rest (i + 1) (r.1.set (i + 8) r.2)

/-- All inner accumulation values met over the whole outer loop. -/
def mulOuterAccs (bd : List Nat) : List Nat → Nat → List Nat → List Nat
  | [], _, _ => []
  | ai :: rest, i, s =>
    let r := mulInner ai bd i s 0
    mulInnerAccs ai bd i s 0 ++ mulOuterAccs bd rest (i + 1) (r.1.set (i + 8) r.2)

/-- Final recombination of `u256_mul` (`u256.rs` lines 149-151): each
output limb is `(s[2*i+1] << 32) | s[2*i]` in `u64` arithmetic. -/
def sm9_pairs : List Nat → List Nat
  | lo :: hi :: rest => (((hi <<< 32) % 18446744073709551616) ||| lo) :: sm9_pairs rest
  | [lo] => [lo]
  | [] => []

/-- `u256_mul` from `u256.rs`: split into 32-bit half-limbs, run the
schoolbook convolution into the 16-digit buffer `s`, and recombine
adjacent digit pairs into the eight 64-bit limbs of the product. -/
def u256_mul (a b : U256) : List Nat :=
  sm9_pairs (mulOuter (sm9_split b) (sm9_split a) 0 (List.replicate 16 0))

/-- The exact values of all 64 inner accumulations performed by
`u256_mul a b`. -/
def u256_mul_accs (a b : U256) : List Nat :=
  mulOuterAccs (sm9_split b) (sm9_split a) 0 (List.replicate 16 0)

/-- The mathematical value of the 512-bit product (eight 64-bit limbs,
least significant first). -/
def u512_toNat (l : List Nat) : Nat :=
  l.foldr (fun d acc => d + 18446744073709551616 * acc) 0

/-- The value of a base-2^32 digit list, least significant first. -/
def val32 (s : List Nat) : Nat :=
  s.foldr (fun d acc => d + 4294967296 * acc) 0

/-- Positional weight of the `k`-th base-2^32 digit. -/
def pow32 (k : Nat) : Nat := 4294967296 ^ k

lemma pow32_zero : pow32 0 = 1 := rfl

lemma pow32_succ (k : Nat) : pow32 (k + 1) = 4294967296 * pow32 k := by
  simp only [pow32, pow_succ]; ring

lemma val32_nil : val32 [] = 0 := rfl

lemma val32_cons (d : Nat) (l : List Nat) :
    val32 (d :: l) = d + 4294967296 * val32 l := rfl

lemma u512_toNat_nil : u512_toNat [] = 0 := rfl

lemma u512_toNat_cons (d : Nat) (l : List Nat) :
    u512_toNat (d :: l) = d + 18446744073709551616 * u512_toNat l := rfl

lemma getD_lt_of_forall {s : List Nat} {c : Nat}
    (h : ∀ x ∈ s, x < c) {k : Nat} (hk : k < s.length) : s.getD k 0 < c := by
  induction s generalizing k with
  | nil => simp at hk
  | cons d rest ih =>
    cases k with
    | zero => exact h d (List.mem_cons_self d rest)
    | succ k =>
      simp only [List.getD_cons_succ]
      exact ih (fun x hx => h x (List.mem_cons_of_mem d hx))
        (by simpa using Nat.lt_of_succ_lt_succ hk)

lemma getD_set_ne {s : List Nat} {k v m : Nat} (h : m ≠ k) :
    (s.set k v).getD m 0 = s.getD m 0 := by
  induction s generalizing k m with
  | nil => simp
  | cons d rest ih =>
    cases k with
    | zero =>
      cases m with
      | zero => exact absurd rfl h
      | succ m => simp
    | succ k =>
      cases m with
      | zero => simp
      | succ m =>
        simp only [List.set_cons_succ, List.getD_cons_succ]
        exact ih (fun he => h (by omega))

lemma mem_set_lt {s : List Nat} {c k v : Nat}
    (hs : ∀ x ∈ s, x < c) (hv : v < c) : ∀ x ∈ s.set k v, x < c := by
  intro x hx
  rcases List.mem_or_eq_of_mem_set hx with hmem | rfl
  · exact hs x hmem
  · exact hv

lemma val32_set_add (s : List Nat) (k v : Nat) (hk : k < s.length) :
    val32 (s.set k v) + s.getD k 0 * pow32 k = val32 s + v * pow32 k := by
  induction s generalizing k with
  | nil => simp at hk
  | cons d rest ih =>
    cases k with
    | zero =>
      simp only [List.set_cons_zero, List.getD_cons_zero, val32_cons, pow32_zero]
      ring
    | succ k =>
      have hk' : k < rest.length := by simpa using Nat.lt_of_succ_lt_succ hk
      simp only [List.set_cons_succ, List.getD_cons_succ, val32_cons, pow32_succ]
      have h := ih k hk'
      calc d + 4294967296 * val32 (rest.set k v) +
            rest.getD k 0 * (4294967296 * pow32 k)
          = d + 4294967296 * (val32 (rest.set k v) + rest.getD k 0 * pow32 k) := by
            ring
        _ = d + 4294967296 * (val32 rest + v * pow32 k) := by rw [h]
        _ = d + 4294967296 * val32 rest + v * (4294967296 * pow32 k) := by ring

lemma mulInner_spec (ai : Nat) (hai : ai < 4294967296) :
    ∀ (bs : List Nat) (k : Nat) (s : List Nat) (u : Nat),
      (∀ x ∈ bs, x < 4294967296) → (∀ x ∈ s, x < 4294967296) →
      u < 4294967296 → k + bs.length ≤ s.length →
      (mulInner ai bs k s u).1.length = s.length ∧
      (∀ x ∈ (mulInner ai bs k s u).1, x < 4294967296) ∧
      (mulInner ai bs k s u).2 < 4294967296 ∧
      (∀ m, k + bs.length ≤ m → (mulInner ai bs k s u).1.getD m 0 = s.getD m 0) ∧
      val32 (mulInner ai bs k s u).1 +
        (mulInner ai bs k s u).2 * pow32 (k + bs.length)
        = val32 s + (u + ai * val32 bs) * pow32 k := by
  intro bs
  induction bs with
  | nil =>
    intro k s u hbs hs hu hlen
    refine ⟨rfl, hs, hu, fun m _ => rfl, ?_⟩
    simp [mulInner, val32_nil]
  | cons bj bs ih =>
    intro k s u hbs hs hu hlen
    have hbj : bj < 4294967296 := hbs bj (List.mem_cons_self bj bs)
    have hbs' : ∀ x ∈ bs, x < 4294967296 :=
      fun x hx => hbs x (List.mem_cons_of_mem bj hx)
    have hlen1 : k + (bs.length + 1) ≤ s.length := by
      simp only [List.length_cons] at hlen; exact hlen
    have hklt : k < s.length := by omega
    have hsk : s.getD k 0 < 4294967296 := getD_lt_of_forall hs hklt
    have hprod : ai * bj ≤ 4294967295 * 4294967295 :=
      Nat.mul_le_mul (by omega) (by omega)
    have hTlt : s.getD k 0 + ai * bj + u < 18446744073709551616 := by omega
    have ht : ((s.getD k 0 + (ai * bj) % 18446744073709551616) %
        18446744073709551616 + u) % 18446744073709551616 =
        s.getD k 0 + ai * bj + u := by
      rw [Nat.mod_eq_of_lt (show ai * bj < 18446744073709551616 by omega),
        Nat.mod_eq_of_lt (show s.getD k 0 + ai * bj < 18446744073709551616 by omega),
        Nat.mod_eq_of_lt hTlt]
    have step : mulInner ai (bj :: bs) k s u =
        mulInner ai bs (k + 1)
          (s.set k ((s.getD k 0 + ai * bj + u) % 4294967296))
          ((s.getD k 0 + ai * bj + u) / 4294967296) := by
      simp only [mulInner]
      rw [ht]
    have hs' : ∀ x ∈ s.set k ((s.getD k 0 + ai * bj + u) % 4294967296),
        x < 4294967296 :=
      mem_set_lt hs (Nat.mod_lt _ (by norm_num))
    have hu' : (s.getD k 0 + ai * bj + u) / 4294967296 < 4294967296 := by omega
    have hlen' : (k + 1) + bs.length ≤
        (s.set k ((s.getD k 0 + ai * bj + u) % 4294967296)).length := by
      rw [List.length_set]; omega
    obtain ⟨ihlen, ihmem, ihu, ihpres, ihval⟩ :=
      ih (k + 1) (s.set k ((s.getD k 0 + ai * bj + u) % 4294967296))
        ((s.getD k 0 + ai * bj + u) / 4294967296) hbs' hs' hu' hlen'
    refine ⟨?_, ?_, ?_, ?_, ?_⟩
    · rw [step, ihlen, List.length_set]
    · rw [step]; exact ihmem
    · rw [step]; exact ihu
    · intro m hm
      have hm' : (k + 1) + bs.length ≤ m := by
        simp only [List.length_cons] at hm; omega
      rw [step, ihpres m hm']
      exact getD_set_ne (by omega)
    · rw [step]
      have hexp : k + (bj :: bs).length = (k + 1) + bs.length := by
        simp only [List.length_cons]; omega
      rw [hexp, ihval, val32_cons, pow32_succ]
      have hset := val32_set_add s k ((s.getD k 0 + ai * bj + u) % 4294967296) hklt
      refine Nat.add_right_cancel
        (?_ : _ + s.getD k 0 * pow32 k = _ + s.getD k 0 * pow32 k)
      calc val32 (s.set k ((s.getD k 0 + ai * bj + u) % 4294967296)) +
            ((s.getD k 0 + ai * bj + u) / 4294967296 + ai * val32 bs) *
              (4294967296 * pow32 k) + s.getD k 0 * pow32 k
          = (val32 (s.set k ((s.getD k 0 + ai * bj + u) % 4294967296)) +
              s.getD k 0 * pow32 k) +
            ((s.getD k 0 + ai * bj + u) / 4294967296 + ai * val32 bs) *
              (4294967296 * pow32 k) := by ring
        _ = (val32 s + (s.getD k 0 + ai * bj + u) % 4294967296 * pow32 k) +
            ((s.getD k 0 + ai * bj + u) / 4294967296 + ai * val32 bs) *
              (4294967296 * pow32 k) := by rw [hset]
        _ = val32 s + ((s.getD k 0 + ai * bj + u) % 4294967296 +
              4294967296 * ((s.getD k 0 + ai * bj + u) / 4294967296)) * pow32 k +
            ai * val32 bs * (4294967296 * pow32 k) := by ring
        _ = val32 s + (s.getD k 0 + ai * bj + u) * pow32 k +
            ai * val32 bs * (4294967296 * pow32 k) := by rw [Nat.mod_add_div]
        _ = val32 s + (u + ai * (bj + 4294967296 * val32 bs)) * pow32 k +
            s.getD k 0 * pow32 k := by ring

lemma mulInnerAccs_bound (ai : Nat) (hai : ai < 4294967296) :
    ∀ (bs : List Nat) (k : Nat) (s : List Nat) (u : Nat),
      (∀ x ∈ bs, x < 4294967296) → (∀ x ∈ s, x < 4294967296) →
      u < 4294967296 → k + bs.length ≤ s.length →
      ∀ x ∈ mulInnerAccs ai bs k s u, x < 18446744073709551616 := by
  intro bs
  induction bs with
  | nil => intro k s u _ _ _ _ x hx; simp [mulInnerAccs] at hx
  | cons bj bs ih =>
    intro k s u hbs hs hu hlen x hx
    have hbj : bj < 4294967296 := hbs bj (List.mem_cons_self bj bs)
    have hbs' : ∀ y ∈ bs, y < 4294967296 :=
      fun y hy => hbs y (List.mem_cons_of_mem bj hy)
    have hlen1 : k + (bs.length + 1) ≤ s.length := by
      simp only [List.length_cons] at hlen; exact hlen
    have hklt : k < s.length := by omega
    have hsk : s.getD k 0 < 4294967296 := getD_lt_of_forall hs hklt
    have hprod : ai * bj ≤ 4294967295 * 4294967295 :=
      Nat.mul_le_mul (by omega) (by omega)
    simp only [mulInnerAccs, List.mem_cons] at hx
    rcases hx with rfl | hx
    · omega
    · have ht : ((s.getD k 0 + (ai * bj) % 18446744073709551616) %
          18446744073709551616 + u) % 18446744073709551616 =
          s.getD k 0 + ai * bj + u := by
        rw [Nat.mod_eq_of_lt (show ai * bj < 18446744073709551616 by omega),
          Nat.mod_eq_of_lt
            (show s.getD k 0 + ai * bj < 18446744073709551616 by omega),
          Nat.mod_eq_of_lt (show s.getD k 0 + ai * bj + u <
            18446744073709551616 by omega)]
      rw [ht] at hx
      have hs' : ∀ y ∈ s.set k ((s.getD k 0 + ai * bj + u) % 4294967296),
          y < 4294967296 :=
        mem_set_lt hs (Nat.mod_lt _ (by norm_num))
      have hu' : (s.getD k 0 + ai * bj + u) / 4294967296 < 4294967296 := by omega
      have hlen' : (k + 1) + bs.length ≤
          (s.set k ((s.getD k 0 + ai * bj + u) % 4294967296)).length := by
        rw [List.length_set]; omega
      exact ih (k + 1) _ _ hbs' hs' hu' hlen' x hx

lemma mulOuter_spec (bd : List Nat) (hbd : ∀ x ∈ bd, x < 4294967296)
    (hbdl : bd.length = 8) :
    ∀ (ad : List Nat) (i : Nat) (s : List Nat),
      (∀ x ∈ ad, x < 4294967296) → (∀ x ∈ s, x < 4294967296) →
      s.length = 16 → i + ad.length ≤ 8 →
      (∀ m, i + 8 ≤ m → s.getD m 0 = 0) →
      (mulOuter bd ad i s).length = 16 ∧
      (∀ x ∈ mulOuter bd ad i s, x < 4294967296) ∧
      val32 (mulOuter bd ad i s) = val32 s + val32 ad * val32 bd * pow32 i := by
  intro ad
  induction ad with
  | nil =>
    intro i s _ hs hsl _ _
    refine ⟨hsl, hs, ?_⟩
    simp [mulOuter, val32_nil]
  | cons ai rest ih =>
    intro i s had hs hsl hio hzero
    have hai : ai < 4294967296 := had ai (List.mem_cons_self ai rest)
    have hrest : ∀ x ∈ rest, x < 4294967296 :=
      fun x hx => had x (List.mem_cons_of_mem ai hx)
    have hio1 : i + (rest.length + 1) ≤ 8 := by
      simp only [List.length_cons] at hio; exact hio
    have hinlen : i + bd.length ≤ s.length := by rw [hbdl, hsl]; omega
    obtain ⟨rlen, rmem, ru, rpres, rval⟩ :=
      mulInner_spec ai hai bd i s 0 hbd hs (by norm_num) hinlen
    have hi8lt : i + 8 < (mulInner ai bd i s 0).1.length := by
      rw [rlen, hsl]; omega
    have hgd0 : (mulInner ai bd i s 0).1.getD (i + 8) 0 = 0 := by
      rw [rpres (i + 8) (by rw [hbdl])]
      exact hzero (i + 8) (Nat.le_refl _)
    have hsetval : val32 ((mulInner ai bd i s 0).1.set (i + 8)
        (mulInner ai bd i s 0).2) =
        val32 (mulInner ai bd i s 0).1 +
          (mulInner ai bd i s 0).2 * pow32 (i + 8) := by
      have h := val32_set_add (mulInner ai bd i s 0).1 (i + 8)
        (mulInner ai bd i s 0).2 hi8lt
      rw [hgd0] at h
      simpa using h
    have hval'' : val32 ((mulInner ai bd i s 0).1.set (i + 8)
        (mulInner ai bd i s 0).2) =
        val32 s + ai * val32 bd * pow32 i := by
      rw [hsetval]
      rw [hbdl] at rval
      rw [rval]
      simp [Nat.zero_add]
    have hmem'' : ∀ x ∈ (mulInner ai bd i s 0).1.set (i + 8)
        (mulInner ai bd i s 0).2, x < 4294967296 :=
      mem_set_lt rmem ru
    have hlen'' : ((mulInner ai bd i s 0).1.set (i + 8)
        (mulInner ai bd i s 0).2).length = 16 := by
      rw [List.length_set, rlen, hsl]
    have hzero'' : ∀ m, (i + 1) + 8 ≤ m →
        ((mulInner ai bd i s 0).1.set (i + 8)
          (mulInner ai bd i s 0).2).getD m 0 = 0 := by
      intro m hm
      rw [getD_set_ne (by omega)]
      rw [rpres m (by rw [hbdl]; omega)]
      exact hzero m (by omega)
    obtain ⟨flen, fmem, fval⟩ := ih (i + 1) _ hrest hmem'' hlen''
      (by omega) hzero''
    have step : mulOuter bd (ai :: rest) i s =
        mulOuter bd rest (i + 1) ((mulInner ai bd i s 0).1.set (i + 8)
          (mulInner ai bd i s 0).2) := by
      simp only [mulOuter]
    refine ⟨by rw [step]; exact flen, by rw [step]; exact fmem, ?_⟩
    rw [step, fval, hval'', val32_cons, pow32_succ]
    ring

lemma mulOuterAccs_bound (bd : List Nat) (hbd : ∀ x ∈ bd, x < 4294967296)
    (hbdl : bd.length = 8) :
    ∀ (ad : List Nat) (i : Nat) (s : List Nat),
      (∀ x ∈ ad, x < 4294967296) → (∀ x ∈ s, x < 4294967296) →
      s.length = 16 → i + ad.length ≤ 8 →
      ∀ x ∈ mulOuterAccs bd ad i s, x < 18446744073709551616 := by
  intro ad
  induction ad with
  | nil => intro i s _ _ _ _ x hx; simp [mulOuterAccs] at hx
  | cons ai rest ih =>
    intro i s had hs hsl hio x hx
    have hai : ai < 4294967296 := had ai (List.mem_cons_self ai rest)
    have hrest : ∀ y ∈ rest, y < 4294967296 :=
      fun y hy => had y (List.mem_cons_of_mem ai hy)
    have hio1 : i + (rest.length + 1) ≤ 8 := by
      simp only [List.length_cons] at hio; exact hio
    have hinlen : i + bd.length ≤ s.length := by rw [hbdl, hsl]; omega
    obtain ⟨rlen, rmem, ru, rpres, rval⟩ :=
      mulInner_spec ai hai bd i s 0 hbd hs (by norm_num) hinlen
    have hmem'' : ∀ y ∈ (mulInner ai bd i s 0).1.set (i + 8)
        (mulInner ai bd i s 0).2, y < 4294967296 :=
      mem_set_lt rmem ru
    have hlen'' : ((mulInner ai bd i s 0).1.set (i + 8)
        (mulInner ai bd i s 0).2).length = 16 := by
      rw [List.length_set, rlen, hsl]
    simp only [mulOuterAccs, List.mem_append] at hx
    rcases hx with hx | hx
    · exact mulInnerAccs_bound ai hai bd i s 0 hbd hs (by norm_num) hinlen x hx
    · exact ih (i + 1) _ hrest hmem'' hlen'' (by omega) x hx

lemma pair_combine (hi lo : Nat) (hhi : hi < 4294967296) (hlo : lo < 4294967296) :
    ((hi <<< 32) % 18446744073709551616) ||| lo = hi * 4294967296 + lo := by
  have h1 : hi <<< 32 = hi * 4294967296 := by
    rw [Nat.shiftLeft_eq]
  have h2 : hi * 4294967296 < 18446744073709551616 := by omega
  rw [h1, Nat.mod_eq_of_lt h2]
  have h3 : lo < 2 ^ 32 := by
    calc lo < 4294967296 := hlo
      _ = 2 ^ 32 := by norm_num
  have h4 := Nat.mul_add_lt_is_or h3 hi
  have h5 : (2 : Nat) ^ 32 = 4294967296 := by norm_num
  rw [h5] at h4
  rw [mul_comm hi 4294967296]
  exact h4.symm

lemma sm9_pairs_val : ∀ (n : Nat) (s : List Nat), s.length ≤ n →
    (∀ x ∈ s, x < 4294967296) → u512_toNat (sm9_pairs s) = val32 s := by
  intro n
  induction n with
  | zero =>
    intro s hl _
    rcases s with _ | ⟨lo, rest⟩
    · rfl
    · simp at hl
  | succ n ih =>
    intro s hl hs
    rcases s with _ | ⟨lo, _ | ⟨hi, rest⟩⟩
    · rfl
    · simp [sm9_pairs, u512_toNat_cons, u512_toNat_nil, val32_cons, val32_nil]
    · have hlo : lo < 4294967296 := hs lo (by simp)
      have hhi : hi < 4294967296 := hs hi (by simp)
      have hrest : ∀ x ∈ rest, x < 4294967296 := fun x hx => hs x (by simp [hx])
      have hlen : rest.length ≤ n := by
        simp only [List.length_cons] at hl; omega
      simp only [sm9_pairs]
      rw [u512_toNat_cons, ih rest hlen hrest, pair_combine hi lo hhi hlo,
        val32_cons, val32_cons]
      ring

lemma sm9_pairs_val_of_mem (s : List Nat) (hs : ∀ x ∈ s, x < 4294967296) :
    u512_toNat (sm9_pairs s) = val32 s :=
  sm9_pairs_val s.length s (Nat.le_refl _) hs

lemma sm9_split_mem (a : U256) (ha : u256_valid a) :
    ∀ x ∈ sm9_split a, x < 4294967296 := by
  obtain ⟨h0, h1, h2, h3⟩ := ha
  intro x hx
  simp only [sm9_split, List.mem_cons, List.not_mem_nil, or_false] at hx
  rcases hx with rfl | rfl | rfl | rfl | rfl | rfl | rfl | rfl <;> omega

lemma sm9_split_val (a : U256) (ha : u256_valid a) :
    val32 (sm9_split a) = u256_toNat a := by
  obtain ⟨h0, h1, h2, h3⟩ := ha
  simp only [sm9_split, val32_cons, val32_nil, u256_toNat]
  omega

lemma replicate_getD_zero : ∀ (n m : Nat), (List.replicate n (0 : Nat)).getD m 0 = 0 := by
  intro n
  induction n with
  | zero => intro m; simp
  | succ n ih =>
    intro m
    cases m with
    | zero => simp [List.replicate_succ]
    | succ m => simp only [List.replicate_succ, List.getD_cons_succ]; exact ih m

lemma replicate_mem_lt : ∀ x ∈ List.replicate 16 (0 : Nat), x < 4294967296 := by
  intro x hx
  rw [List.eq_of_mem_replicate hx]
  norm_num

/-- C3: for all valid 256-bit inputs, `u256_mul` computes the exact
512-bit mathematical product with no precision loss. -/
theorem u256_mul_exact (a b : U256) (ha : u256_valid a) (hb : u256_valid b) :
    u512_toNat (u256_mul a b) = u256_toNat a * u256_toNat b := by
  have hbd := sm9_split_mem b hb
  have had := sm9_split_mem a ha
  obtain ⟨flen, fmem, fval⟩ := mulOuter_spec (sm9_split b) hbd rfl
    (sm9_split a) 0 (List.replicate 16 0) had replicate_mem_lt
    (by simp) (by simp [sm9_split]) (fun m _ => replicate_getD_zero 16 m)
  unfold u256_mul
  rw [sm9_pairs_val_of_mem _ fmem, fval, sm9_split_val a ha, sm9_split_val b hb]
  have : val32 (List.replicate 16 (0 : Nat)) = 0 := rfl
  rw [this, pow32_zero]
  ring

/-- Witness for C3 at a concrete input. -/
theorem u256_mul_exact_witness :
    u256_valid ⟨18446744073709551615, 18446744073709551615, 18446744073709551615,
      18446744073709551615⟩ ∧
    u512_toNat (u256_mul
      ⟨18446744073709551615, 18446744073709551615, 18446744073709551615,
        18446744073709551615⟩
      ⟨18446744073709551615, 18446744073709551615, 18446744073709551615,
        18446744073709551615⟩) =
      u256_toNat ⟨18446744073709551615, 18446744073709551615, 18446744073709551615,
        18446744073709551615⟩ *
      u256_toNat ⟨18446744073709551615, 18446744073709551615, 18446744073709551615,
        18446744073709551615⟩ :=
  ⟨by decide,
   u256_mul_exact _ _ (by decide) (by decide)⟩

/-- C9: in `u256_mul`, every inner accumulation `s[i+j] + a_[i]*b_[j] + u`
fits in an unsigned 64-bit integer: its value never exceeds `2^64 - 1`,
which is exactly the maximum the operand ranges allow
(`(2^32-1) + (2^32-1)*(2^32-1) + (2^32-1) = 2^64 - 1`), so no
intermediate operation wraps and the convolution loses no carries. -/
theorem u256_mul_accs_no_overflow (a b : U256)
    (ha : u256_valid a) (hb : u256_valid b) :
    (∀ x ∈ u256_mul_accs a b, x ≤ 18446744073709551615) ∧
    4294967295 + 4294967295 * 4294967295 + 4294967295 = 18446744073709551615 := by
  constructor
  · intro x hx
    unfold u256_mul_accs at hx
    have := mulOuterAccs_bound (sm9_split b) (sm9_split_mem b hb) rfl
      (sm9_split a) 0 (List.replicate 16 0) (sm9_split_mem a ha)
      replicate_mem_lt (by simp) (by simp [sm9_split]) x hx
    omega
  · norm_num

/-- Witness for C9 at a concrete input. -/
theorem u256_mul_accs_no_overflow_witness :
    u256_valid ⟨18446744073709551615, 18446744073709551615, 18446744073709551615,
      18446744073709551615⟩ ∧
    (∀ x ∈ u256_mul_accs
      ⟨18446744073709551615, 18446744073709551615, 18446744073709551615,
        18446744073709551615⟩
      ⟨18446744073709551615, 18446744073709551615, 18446744073709551615,
        18446744073709551615⟩, x ≤ 18446744073709551615) :=
  ⟨by decide,
   (u256_mul_accs_no_overflow _ _ (by decide) (by decide)).1⟩

/-- Modelled from the spec: the prime-field layer `fields/fp.rs` is not
among the provided sources; per spec section 4.2 an `Fp` element is a
canonical 256-bit residue in `[0, p)` and every operation performs the
integer operation followed by reduction mod the fixed prime. Field
addition. -/
def fp_add (p a b : Nat) : Nat := (a + b) % p

/-- Modelled from the spec: field subtraction (integer operation then
reduction mod `p`). -/
def fp_sub (p a b : Nat) : Nat := (a + p - b) % p

/-- Modelled from the spec: field negation. -/
def fp_neg (p a : Nat) : Nat := (p - a) % p

/-- Modelled from the spec: field doubling (multiplication by 2). -/
def fp_double (p a : Nat) : Nat := (a + a) % p

/-- Modelled from the spec: field tripling (multiplication by 3). -/
def fp_triple (p a : Nat) : Nat := (a + a + a) % p

/-- Modelled from the spec: field squaring. -/
def fp_sqr (p a : Nat) : Nat := (a * a) % p

/-- Modelled from the spec: field multiplication. -/
def fp_mul (p a b : Nat) : Nat := (a * b) % p

/-- Modelled from the spec: field halving, spec section 4.2 - add `p`
then shift right by one bit when the value is odd, else shift right
directly. -/
def fp_div2 (p a : Nat) : Nat := if a % 2 = 0 then a / 2 else (a + p) / 2

/-- A Jacobian point of the base-curve group G1
(`struct Point { x: Fp, y: Fp, z: Fp }` in `points.rs`), with each `Fp`
coordinate modelled as its canonical integer residue. -/
structure Point where
  x : Nat
  y : Nat
  z : Nat
  deriving DecidableEq, Repr

/-- `Point::zero()` from `points.rs`: the canonical point at infinity
`(1, 1, 0)`. -/
def Point.zero : Point := ⟨1, 1, 0⟩

/-- `Point::is_zero()` from `points.rs`: tests `z = 0` (canonical-form
check against the field zero). -/
def Point.is_zero (P : Point) : Bool := P.z == 0

/-- `Point::point_double` from `points.rs`: return `P` unchanged at
infinity, else run the source's field-operation sequence (`t2 = 3*x^2`,
`z3 = (2*y)*z`, `t3 = (2*y)^2*x`, `y3 = ((2*y)^2)^2/2`,
`x3 = t2^2 - 2*t3`, `y3 = t2*(t3 - x3) - y3`). -/
def Point.point_double (p : Nat) (P : Point) : Point :=
  if P.is_zero then P
  else
    let x1 := P.x
    let y1 := P.y
    let z1 := P.z
    let t2 := fp_sqr p x1
    let t2 := fp_triple p t2
    let y3 := fp_double p y1
    let z3 := fp_mul p y3 z1
    let y3 := fp_sqr p y3
    let t3 := fp_mul p y3 x1
    let y3 := fp_sqr p y3
    let y3 := fp_div2 p y3
    let x3 := fp_sqr p t2
    let t1 := fp_double p t3
    let x3 := fp_sub p x3 t1
    let t1 := fp_sub p t3 x3
    let t1 := fp_mul p t1 t2
    let y3 := fp_sub p t1 y3
    ⟨x3, y3, z3⟩

/-- `Point::point_add` from `points.rs`: returns `self` when `rhs` is
infinity and `rhs` when `self` is infinity; the remaining branch of the
source is `todo!()`, a panic, embedded as `none`. -/
def Point.point_add (P Q : Point) : Option Point :=
  if Q.is_zero then some P
  else if P.is_zero then some Q
  else none

/-- `Point::point_neg` from `points.rs`: negate the y-coordinate. -/
def Point.point_neg (p : Nat) (P : Point) : Point :=
  ⟨P.x, fp_neg p P.y, P.z⟩

/-- `Point::point_sub` from `points.rs`: add the negation. -/
def Point.point_sub (p : Nat) (P Q : Point) : Option Point :=
  P.point_add (Q.point_neg p)

/-- `Point::point_double_x5` from `points.rs`: five successive
doublings. -/
def Point.point_double_x5 (p : Nat) (P : Point) : Point :=
  ((((P.point_double p).point_double p).point_double p).point_double
    p).point_double p

/-- `Point::point_mul` from `points.rs`: the entire body is `todo!()`, a
panic, embedded as `none`. -/
def Point.point_mul (P : Point) (k : U256) : Option Point := none

/-- The fixed G1 generator constant from `points.rs` (limbs exactly as in
the source). -/
def G1 : Point :=
  ⟨u256_toNat ⟨0xe8c4e4817c66dddd, 0xe1e4086909dc3280,
     0xf5ed0704487d01d6, 0x93de051d62bf718f⟩,
   u256_toNat ⟨0x0c464cd70a3ea616, 0x1c1c00cbfa602435,
     0x631065125c395bbc, 0x21fe8dda4f21e607⟩,
   u256_toNat ⟨1, 0, 0, 0⟩⟩

/-- C1 (code_bug evidence): `point_add` implements only the two
infinity branches; on two equal non-infinity points (here the generator
`G1`, where the claim requires the result `double(G1)`) the source
executes `todo!()` and panics, embedded as `none`. -/
theorem point_add_stub_on_equal_points :
    Point.point_add G1 G1 = none ∧
    (∀ P Q : Point, Q.is_zero = true → Point.point_add P Q = some P) ∧
    (∀ P Q : Point, P.is_zero = false → Q.is_zero = false →
      Point.point_add P Q = none) := by
  refine ⟨rfl, ?_, ?_⟩
  · intro P Q hq
    simp [Point.point_add, hq]
  · intro P Q hp hq
    simp [Point.point_add, hp, hq]

/-- Witness for C1's theorem hypotheses at concrete points. -/
theorem point_add_stub_on_equal_points_witness :
    (Point.mk 1 2 0).is_zero = true ∧
    Point.point_add (Point.mk 5 6 7) (Point.mk 1 2 0) = some (Point.mk 5 6 7) ∧
    (Point.mk 5 6 7).is_zero = false ∧
    Point.point_add (Point.mk 5 6 7) (Point.mk 5 6 7) = none :=
  ⟨by decide,
   point_add_stub_on_equal_points.2.1 (Point.mk 5 6 7) (Point.mk 1 2 0) (by decide),
   by decide,
   point_add_stub_on_equal_points.2.2 (Point.mk 5 6 7) (Point.mk 5 6 7)
     (by decide) (by decide)⟩

/-- C2 (code_bug evidence): `point_mul` is `todo!()` - it panics
(embedded as `none`) for every input, in particular on the boundary
cases the claim requires (`k = 0` on `G1`, `k = 1` on `G1`, any `k` on
the point at infinity). -/
theorem point_mul_stub :
    Point.point_mul G1 ⟨0, 0, 0, 0⟩ = none ∧
    Point.point_mul G1 ⟨1, 0, 0, 0⟩ = none ∧
    Point.point_mul Point.zero ⟨5, 0, 0, 0⟩ = none :=
  ⟨rfl, rfl, rfl⟩

/-- C6: `point_double` returns `P` unchanged when `P` is the point at
infinity, and otherwise produces a point whose z-coordinate is
`2*y*z` in the field (the value the doubling formula assigns via
`z3 = (2*y)*z`). The `Fp` operations are modelled from the spec since
`fields/fp.rs` is not among the provided sources. -/
theorem point_double_spec (p : Nat) (P : Point) :
    (P.is_zero = true → Point.point_double p P = P) ∧
    (P.is_zero = false → (Point.point_double p P).z = (2 * P.y * P.z) % p) := by
  constructor
  · intro h
    simp [Point.point_double, h]
  · intro h
    simp only [Point.point_double, h, Bool.false_eq_true, if_false]
    try dsimp only
    simp only [fp_mul, fp_double]
    rw [Nat.mod_mul_mod]
    have hy : (P.y + P.y) * P.z = 2 * P.y * P.z := by ring
    rw [hy]

/-- Witness for C6 at concrete points, one per hypothesis. -/
theorem point_double_spec_witness :
    (Point.mk 1 1 0).is_zero = true ∧
    Point.point_double 7 (Point.mk 1 1 0) = Point.mk 1 1 0 ∧
    (Point.mk 2 3 4).is_zero = false ∧
    (Point.point_double 7 (Point.mk 2 3 4)).z = (2 * 3 * 4) % 7 :=
  ⟨by decide,
   (point_double_spec 7 (Point.mk 1 1 0)).1 (by decide),
   by decide,
   (point_double_spec 7 (Point.mk 2 3 4)).2 (by decide)⟩

/-- The error type of the SM2 layer (`sm2/error.rs` is not among the
provided sources; the variants are the ones `sm2/key.rs` constructs,
plus a decode error for `Point::from_byte`). -/
inductive Sm2Error where
  | ZeroPoint
  | CheckPointErr
  | ZeroData
  | HashNotEqual
  | PointDecodeErr
  deriving DecidableEq, Repr

/-- `CompressModle` from `sm2/key.rs`. -/
inductive CompressModle where
  | Compressed
  | Uncompressed
  | Mixed
  deriving DecidableEq, Repr

/-- The `c1_end_index` computed at the top of `Sm2PrivateKey::decrypt`:
33 bytes for compressed points, 65 otherwise. -/
def c1_end_index (mode : CompressModle) : Nat :=
  match mode with
  | CompressModle.Compressed => 33
  | CompressModle.Uncompressed => 65
  | CompressModle.Mixed => 65

/-- Modelled from the spec: the collaborators `sm2/key.rs` consumes
(`p256_ecc`, `kdf`, `sm3_hash`), none of which are among the provided
sources. They are abstract operations over an abstract point type;
the claims about `sm2/key.rs` are proved for every instantiation. -/
structure EccOps (Pt : Type) where
  base_mul_point : Nat → Pt → Pt
  to_affine : Pt → Pt
  is_zero : Pt → Bool
  is_valid_affine : Pt → Bool
  from_byte : List Nat → CompressModle → Except Sm2Error Pt
  to_byte : Pt → CompressModle → List Nat
  x_bytes : Pt → List Nat
  y_bytes : Pt → List Nat
  g_point : Pt
  h : Nat
  kdf : List Nat → Nat → List Nat
  sm3_hash : List Nat → List Nat

/-- `BigUint::from_bytes_be`: the value of a big-endian byte string. -/
def from_bytes_be (l : List Nat) : Nat :=
  l.foldl (fun acc b => 256 * acc + b) 0

/-- Digit-extraction loop of `BigUint::to_bytes_be`, with explicit fuel
(`n` itself always suffices). -/
def to_bytes_be_loop : Nat → Nat → List Nat → List Nat
  | 0, _, acc => acc
  | fuel + 1, n, acc =>
    if n = 0 then acc else to_bytes_be_loop fuel (n / 256) (n % 256 :: acc)

/-- `BigUint::to_bytes_be`: minimal big-endian byte string; the zero
value encodes as the single byte `[0]` (as in `num-bigint`). -/
def to_bytes_be (n : Nat) : List Nat :=
  if n = 0 then [0] else to_bytes_be_loop n n []

/-- One iteration of the retry loop of `Sm2PublicKey::encrypt`
(`sm2/key.rs` lines 16-56) for a given ephemeral scalar `k`: `none`
means the kdf output was all-zero and the loop retries with a fresh
scalar. -/
def sm2_encrypt_once {Pt : Type} (M : EccOps Pt) (pk : Pt)
    (mode : CompressModle) (k : Nat) (msg : List Nat) :
    Option (Except Sm2Error (List Nat)) :=
  let klen := msg.length
  let c1_p := M.to_affine (M.base_mul_point k M.g_point)
  let s_p := M.base_mul_point M.h pk
  if M.is_zero s_p then some (Except.error Sm2Error.ZeroPoint)
  else
    let c2_p := M.to_affine (M.base_mul_point k pk)
    let x2_bytes := M.x_bytes c2_p
    let y2_bytes := M.y_bytes c2_p
    let t := M.kdf (x2_bytes ++ y2_bytes) klen
    if t.all (fun e => e == 0) then none
    else
      let c2 := from_bytes_be msg ^^^ from_bytes_be t
      let c3 := M.sm3_hash (x2_bytes ++ msg ++ y2_bytes)
      some (Except.ok (M.to_byte c1_p mode ++ to_bytes_be c2 ++ c3))

/-- `Sm2PublicKey::encrypt`: run the loop body over the stream `ks` of
ephemeral scalars drawn by `random_uint`; `none` models the loop never
exiting within the provided randomness. -/
def sm2_encrypt {Pt : Type} (M : EccOps Pt) (pk : Pt)
    (mode : CompressModle) (ks : List Nat) (msg : List Nat) :
    Option (Except Sm2Error (List Nat)) :=
  match ks with
  | [] => none
  | k :: rest =>
    match sm2_encrypt_once M pk mode k msg with
    | some r => some r
    | none => sm2_encrypt M pk mode rest msg

/-- `Sm2PrivateKey::decrypt` (`sm2/key.rs` lines 71-121). The function
slices `ciphertext[0..c1_end]`, `ciphertext[c1_end..len-32]` and
`ciphertext[len-32..]` without a length check; inputs too short for
those ranges make the Rust code panic, embedded as `none`. -/
def sm2_decrypt {Pt : Type} (M : EccOps Pt) (d : Nat)
    (mode : CompressModle) (ciphertext : List Nat) :
    Option (Except Sm2Error (List Nat)) :=
  let cl := c1_end_index mode
  if cl + 32 ≤ ciphertext.length then
    let c1_bytes := ciphertext.take cl
    let c2_bytes := (ciphertext.drop cl).take (ciphertext.length - 32 - cl)
    let c3_bytes := ciphertext.drop (ciphertext.length - 32)
    let kelen := c2_bytes.length
    match M.from_byte c1_bytes mode with
    | Except.error e => some (Except.error e)
    | Except.ok c1_point =>
      if !(M.is_valid_affine (M.to_affine c1_point)) then
        some (Except.error Sm2Error.CheckPointErr)
      else if M.is_zero (M.base_mul_point M.h c1_point) then
        some (Except.error Sm2Error.ZeroPoint)
      else
        let c2_point := M.to_affine (M.base_mul_point d c1_point)
        let x2_bytes := M.x_bytes c2_point
        let y2_bytes := M.y_bytes c2_point
        let t := M.kdf (x2_bytes ++ y2_bytes) kelen
        if t.all (fun e => e == 0) then some (Except.error Sm2Error.ZeroData)
        else
          let m := from_bytes_be c2_bytes ^^^ from_bytes_be t
          let u := M.sm3_hash (x2_bytes ++ to_bytes_be m ++ y2_bytes)
          if u ≠ c3_bytes then some (Except.error Sm2Error.HashNotEqual)
          else some (Except.ok (to_bytes_be m))
  else none

/-- A trivial concrete instantiation of the collaborators in which no
point is ever the zero point. -/
def M0 : EccOps Unit where
  base_mul_point := fun _ _ => ()
  to_affine := fun _ => ()
  is_zero := fun _ => false
  is_valid_affine := fun _ => true
  from_byte := fun _ _ => Except.ok ()
  to_byte := fun _ _ => List.replicate 33 0
  x_bytes := fun _ => []
  y_bytes := fun _ => []
  g_point := ()
  h := 1
  kdf := fun _ n => List.replicate n 1
  sm3_hash := fun _ => List.replicate 32 0

/-- A trivial concrete instantiation in which every point is the zero
point (so cofactor multiples are degenerate). -/
def M1 : EccOps Unit where
  base_mul_point := fun _ _ => ()
  to_affine := fun _ => ()
  is_zero := fun _ => true
  is_valid_affine := fun _ => true
  from_byte := fun _ _ => Except.ok ()
  to_byte := fun _ _ => List.replicate 33 0
  x_bytes := fun _ => []
  y_bytes := fun _ => []
  g_point := ()
  h := 1
  kdf := fun _ n => List.replicate n 1
  sm3_hash := fun _ => List.replicate 32 0

lemma to_bytes_be_loop_foldl :
    ∀ (fuel n : Nat) (acc : List Nat) (a : Nat), n ≤ fuel → 0 < n →
      ∃ e, 0 < e ∧
        (to_bytes_be_loop fuel n acc).foldl (fun x b => 256 * x + b) a =
          acc.foldl (fun x b => 256 * x + b) (a * 256 ^ e + n) := by
  intro fuel
  induction fuel with
  | zero => intro n acc a hle hpos; omega
  | succ fuel ih =>
    intro n acc a hle hpos
    have hne : n ≠ 0 := by omega
    rcases Nat.eq_zero_or_pos (n / 256) with hq | hq
    · have hn256 : n < 256 := by omega
      have hloop : to_bytes_be_loop (fuel + 1) n acc = n % 256 :: acc := by
        cases fuel with
        | zero => simp [to_bytes_be_loop, hne]
        | succ g => simp [to_bytes_be_loop, hne, hq]
      refine ⟨1, Nat.one_pos, ?_⟩
      rw [hloop]
      simp only [List.foldl_cons]
      congr 1
      rw [Nat.mod_eq_of_lt hn256]
      ring
    · have hlt : n / 256 < n := Nat.div_lt_self hpos (by norm_num)
      have hle' : n / 256 ≤ fuel := by omega
      have hstep : to_bytes_be_loop (fuel + 1) n acc =
          to_bytes_be_loop fuel (n / 256) (n % 256 :: acc) := by
        simp [to_bytes_be_loop, hne]
      obtain ⟨e, hepos, he⟩ := ih (n / 256) (n % 256 :: acc) a hle' hq
      refine ⟨e + 1, by omega, ?_⟩
      rw [hstep, he]
      simp only [List.foldl_cons]
      have hsplit : 256 * (a * 256 ^ e + n / 256) + n % 256 =
          a * 256 ^ (e + 1) + n := by
        have := Nat.div_add_mod n 256
        rw [pow_succ]
        ring_nf
        omega
      rw [hsplit]

lemma from_bytes_be_to_bytes_be (n : Nat) :
    from_bytes_be (to_bytes_be n) = n := by
  rcases Nat.eq_zero_or_pos n with rfl | hpos
  · rfl
  · have hne : n ≠ 0 := by omega
    unfold to_bytes_be from_bytes_be
    rw [if_neg hne]
    obtain ⟨e, _, he⟩ := to_bytes_be_loop_foldl n n [] 0 (Nat.le_refl n) hpos
    rw [he]
    simp

/-- C7: whenever the cofactor-multiplied shared-secret point is the
point at infinity, `Sm2PublicKey::encrypt` and `Sm2PrivateKey::decrypt`
both return `Sm2Error::ZeroPoint` (encrypt for any nonempty randomness
stream; decrypt for any ciphertext long enough to slice whose `c1`
component decodes to a valid-affine point with zero cofactor
multiple). -/
theorem sm2_zero_point_rejected {Pt : Type} (M : EccOps Pt) (pk : Pt)
    (mode : CompressModle) (d k : Nat) (ks msg ct : List Nat) (c1pt : Pt)
    (henc : M.is_zero (M.base_mul_point M.h pk) = true)
    (hlen : c1_end_index mode + 32 ≤ ct.length)
    (hfb : M.from_byte (ct.take (c1_end_index mode)) mode = Except.ok c1pt)
    (hval : M.is_valid_affine (M.to_affine c1pt) = true)
    (hdz : M.is_zero (M.base_mul_point M.h c1pt) = true) :
    sm2_encrypt M pk mode (k :: ks) msg =
      some (Except.error Sm2Error.ZeroPoint) ∧
    sm2_decrypt M d mode ct = some (Except.error Sm2Error.ZeroPoint) := by
  constructor
  · simp [sm2_encrypt, sm2_encrypt_once, henc]
  · simp [sm2_decrypt, hlen, hfb, hval, hdz]

/-- Witness for C7 at a concrete instantiation. -/
theorem sm2_zero_point_rejected_witness :
    M1.is_zero (M1.base_mul_point M1.h ()) = true ∧
    sm2_encrypt M1 () CompressModle.Compressed [5] [1, 2, 3] =
      some (Except.error Sm2Error.ZeroPoint) ∧
    sm2_decrypt M1 0 CompressModle.Compressed (List.replicate 65 0) =
      some (Except.error Sm2Error.ZeroPoint) :=
  ⟨rfl,
   (sm2_zero_point_rejected M1 () CompressModle.Compressed 0 5 [] [1, 2, 3]
      (List.replicate 65 0) () rfl (by decide) rfl rfl rfl).1,
   (sm2_zero_point_rejected M1 () CompressModle.Compressed 0 5 [] [1, 2, 3]
      (List.replicate 65 0) () rfl (by decide) rfl rfl rfl).2⟩

/-- C8 (code_bug evidence): `Sm2PrivateKey::decrypt` panics (embedded
as `none`) on byte strings shorter than the header plus tag lengths -
the empty string and a 64-byte string both crash the slicing - and the
group-law operation `point_add` panics (`todo!()`) on the valid
non-infinity point `G1`. -/
theorem sm2_decrypt_short_input_panic :
    sm2_decrypt M0 0 CompressModle.Compressed [] = none ∧
    sm2_decrypt M0 0 CompressModle.Compressed (List.replicate 64 0) = none ∧
    Point.point_add G1 G1 = none := by
  exact ⟨rfl, rfl, rfl⟩

/-- C10 counterexample: with the message `[0x00, 0x01]` (a leading zero
byte) the decryption of an encryption returns `Ok [0x01]`, not the
original message: `BigUint` byte conversion strips leading zeros, so the
message recovered from the xor mask loses its leading zero byte before
the final hash comparison and output. -/
theorem sm2_roundtrip_counterexample :
    sm2_encrypt M0 () CompressModle.Compressed [5] [0, 1] =
      some (Except.ok (List.replicate 33 0 ++ [1, 0] ++ List.replicate 32 0)) ∧
    sm2_decrypt M0 0 CompressModle.Compressed
      (List.replicate 33 0 ++ [1, 0] ++ List.replicate 32 0) =
      some (Except.ok [1]) ∧
    ([1] : List Nat) ≠ [0, 1] :=
  ⟨rfl, rfl, by decide⟩

/-- C10 (amended): decrypt inverts encrypt provided the byte encodings
lose no length: the message's `BigUint` round trip is the identity
(no stripped leading zero) and the masked component `msg xor t` keeps
the full message length; plus the collaborator consistency conditions
(the `c1` encoding has the header length and decodes back, its cofactor
multiple is non-zero, the hash is 32 bytes, and both sides derive the
same shared point). -/
theorem sm2_encrypt_decrypt_roundtrip {Pt : Type} (M : EccOps Pt)
    (pk c1pt : Pt) (mode : CompressModle) (d k : Nat) (msg ct : List Nat)
    (henc : sm2_encrypt_once M pk mode k msg = some (Except.ok ct))
    (hc1len : (M.to_byte (M.to_affine (M.base_mul_point k M.g_point)) mode).length =
      c1_end_index mode)
    (hhash : ∀ bs, (M.sm3_hash bs).length = 32)
    (hfb : M.from_byte (M.to_byte (M.to_affine (M.base_mul_point k M.g_point)) mode)
      mode = Except.ok c1pt)
    (hval : M.is_valid_affine (M.to_affine c1pt) = true)
    (hsp2 : M.is_zero (M.base_mul_point M.h c1pt) = false)
    (hdh : M.to_affine (M.base_mul_point d c1pt) = M.to_affine (M.base_mul_point k pk))
    (hmsg : to_bytes_be (from_bytes_be msg) = msg)
    (hxor : (to_bytes_be (from_bytes_be msg ^^^ from_bytes_be
      (M.kdf (M.x_bytes (M.to_affine (M.base_mul_point k pk)) ++
        M.y_bytes (M.to_affine (M.base_mul_point k pk))) msg.length))).length =
      msg.length) :
    sm2_decrypt M d mode ct = some (Except.ok msg) := by
  simp only [sm2_encrypt_once] at henc
  cases hsp : M.is_zero (M.base_mul_point M.h pk) with
  | true => rw [hsp] at henc; simp at henc
  | false =>
  rw [hsp] at henc
  simp only [Bool.false_eq_true, if_false] at henc
  cases ht : (M.kdf (M.x_bytes (M.to_affine (M.base_mul_point k pk)) ++
      M.y_bytes (M.to_affine (M.base_mul_point k pk))) msg.length).all
      (fun e => e == 0) with
  | true => rw [ht] at henc; simp at henc
  | false =>
  rw [ht] at henc
  simp only [Bool.false_eq_true, if_false, Option.some.injEq,
    Except.ok.injEq] at henc
  subst henc
  set X := M.x_bytes (M.to_affine (M.base_mul_point k pk)) with hX
  set Y := M.y_bytes (M.to_affine (M.base_mul_point k pk)) with hY
  set A := M.to_byte (M.to_affine (M.base_mul_point k M.g_point)) mode with hA
  set T := M.kdf (X ++ Y) msg.length with hT
  set B := to_bytes_be (from_bytes_be msg ^^^ from_bytes_be T) with hB
  set C := M.sm3_hash (X ++ msg ++ Y) with hC
  have hClen : C.length = 32 := hhash _
  have hLen : (A ++ B ++ C).length = c1_end_index mode + (msg.length + 32) := by
    simp only [List.length_append, hc1len, hxor, hClen]
    omega
  simp only [sm2_decrypt]
  rw [if_pos (by rw [hLen]; omega :
    c1_end_index mode + 32 ≤ (A ++ B ++ C).length)]
  have htakeA : (A ++ B ++ C).take (c1_end_index mode) = A := by
    rw [List.append_assoc]; exact List.take_left' hc1len
  have hdropA : (A ++ B ++ C).drop (c1_end_index mode) = B ++ C := by
    rw [List.append_assoc]; exact List.drop_left' hc1len
  have hsub : (A ++ B ++ C).length - 32 - c1_end_index mode = B.length := by
    rw [hLen, hxor]; omega
  have htakeB : (B ++ C).take ((A ++ B ++ C).length - 32 - c1_end_index mode) = B := by
    rw [hsub]; exact List.take_left' rfl
  have hdropC : (A ++ B ++ C).drop ((A ++ B ++ C).length - 32) = C := by
    have h1 : (A ++ B).length = (A ++ B ++ C).length - 32 := by
      rw [hLen]
      simp only [List.length_append, hc1len, hxor]
      omega
    rw [← h1]
    exact List.drop_left (A ++ B) C
  rw [htakeA, hfb]
  simp only [hdropA, htakeB, hdropC]
  rw [hval]
  simp only [Bool.not_true, Bool.false_eq_true, if_false]
  rw [hsp2]
  simp only [Bool.false_eq_true, if_false]
  rw [hdh, ← hX, ← hY, hxor, ← hT, ht]
  simp only [Bool.false_eq_true, if_false]
  rw [hB, from_bytes_be_to_bytes_be, Nat.xor_assoc, Nat.xor_self,
    Nat.xor_zero, hmsg, ← hC]
  simp

/-- Witness for the amended C10 round trip at a concrete instantiation
(message `[1]`, ephemeral scalar 5). -/
theorem sm2_encrypt_decrypt_roundtrip_witness :
    sm2_encrypt_once M0 () CompressModle.Compressed 5 [1] =
      some (Except.ok (List.replicate 33 0 ++ [0] ++ List.replicate 32 0)) ∧
    sm2_decrypt M0 0 CompressModle.Compressed
      (List.replicate 33 0 ++ [0] ++ List.replicate 32 0) =
      some (Except.ok [1]) :=
  ⟨rfl,
   sm2_encrypt_decrypt_roundtrip M0 () () CompressModle.Compressed 0 5 [1]
     (List.replicate 33 0 ++ [0] ++ List.replicate 32 0)
     rfl rfl (fun _ => rfl) rfl rfl rfl rfl rfl rfl⟩
